import Mathlib

/-!
Shallow embedding of the movie-recommendation core from src/main.py:
the Movie record, the title index built in MovieRecommender.__init__,
the TF-IDF plus min-max feature engineering, and the cosine-similarity
ranking of MovieRecommender.calculate_similarity.

Numeric values are modelled over the real numbers. Library functions
used by the source (sklearn TfidfVectorizer, MinMaxScaler,
cosine_similarity, numpy argsort and hstack) are embedded following
their documented semantics: the TF-IDF transformer lowercases, applies
the custom tokenizer splitting on the bar character, removes stop
words, fits a sorted vocabulary, weights counts by smoothed idf and
l2-normalizes rows; MinMaxScaler scales each column by its observed
minimum and maximum, replacing a zero range by one; cosine_similarity
l2-normalizes rows (zero rows are left unchanged, giving similarity 0)
and takes dot products; numpy argsort is modelled as a stable ascending
sort of indices, which matches the insertion sort numpy uses on the
small arrays considered in the concrete theorems below.

The fixed English stop-word list of sklearn lives outside this
repository; definitions take the stop-word list as a parameter, and no
claim depends on its contents.
-/

namespace MovieRec

/-- The Movie record of src/main.py with the fields the core reads.
The release year is the derived field stored by the constructor. -/
structure Movie where
  title : String
  genres : String
  keywords : String
  companies : String
  popularity : ℝ
  release_year : ℤ
  runtime : ℝ
  cast : String
  vote_count : ℝ
  vote_average : ℝ

/-- Out-of-range list access placeholder, never reached by the ranking
because argsort only produces valid indices. -/
def defaultMovie : Movie :=
  ⟨"", "", "", "", 0, 1900, 0, "", 0, 0⟩

/-- The dict comprehension of MovieRecommender.__init__ followed by a
dict .get: movie titles are inserted in list order, so a later
duplicate title overwrites an earlier one. -/
def movie_indices (ms : List Movie) (t : String) : Option Nat :=
  ms.enum.foldl (fun acc p => if p.2.title = t then some p.1 else acc) none

/-- Structural split of a character list at a separator character,
with the semantics of the Python str.split: the empty text yields one
empty piece, and separators delimit possibly empty pieces. -/
def splitOnChar (c : Char) : List Char → List (List Char)
  | [] => [[]]
  | a :: rest =>
      if a = c then [] :: splitOnChar c rest
      else
        match splitOnChar c rest with
        | [] => [[a]]
        | t :: ts => (a :: t) :: ts

/-- The preprocessing plus tokenizer of the TfidfVectorizer call:
lowercase the document, then split on the bar character only. -/
def tokenize (d : String) : List String :=
  (splitOnChar (Char.ofNat 124) (d.data.map Char.toLower)).map (fun cs => String.mk cs)

/-- Tokens of a document after stop-word removal. -/
def tokensOf (sw : List String) (d : String) : List String :=
  (tokenize d).filter (fun t => t ∉ sw)

/-- Insertion step of the vocabulary sort. -/
def insertStr (a : String) : List String → List String
  | [] => [a]
  | b :: l => if a < b then a :: b :: l else b :: insertStr a l

/-- Sorted order of the fitted vocabulary, as sklearn sorts feature
names. -/
def sortStrings (l : List String) : List String :=
  l.foldr insertStr []

/-- The fitted vocabulary of one TfidfVectorizer call: distinct tokens
of the corpus, sorted. -/
def vocabulary (sw : List String) (docs : List String) : List String :=
  sortStrings ((docs.map (tokensOf sw)).flatten.dedup)

/-- Document frequency of a token across the corpus. -/
def df (sw : List String) (docs : List String) (t : String) : Nat :=
  (docs.filter (fun d => t ∈ tokensOf sw d)).length

/-- Smoothed inverse document frequency used by TfidfTransformer with
its default settings. -/
noncomputable def idf (sw : List String) (docs : List String) (t : String) : ℝ :=
  Real.log ((1 + (docs.length : ℝ)) / (1 + (df sw docs t : ℝ))) + 1

/-- Dot product of two rows, as numpy computes it entrywise. -/
def dot (u v : List ℝ) : ℝ :=
  (List.zipWith (fun a b => a * b) u v).sum

/-- Euclidean norm of a row. -/
noncomputable def l2norm (v : List ℝ) : ℝ :=
  Real.sqrt (dot v v)

/-- Row l2-normalization shared by TfidfTransformer and
cosine_similarity: a zero-norm row is left unchanged, since the zero
norm is replaced by one before dividing. -/
noncomputable def normalizeRow (v : List ℝ) : List ℝ :=
  if l2norm v = 0 then v else v.map (fun x => x / l2norm v)

/-- Cosine similarity as sklearn computes it: l2-normalize both rows,
then take the dot product. -/
noncomputable def cosineSim (u v : List ℝ) : ℝ :=
  dot (normalizeRow u) (normalizeRow v)

/-- The numpy log1p applied to the vote count. -/
noncomputable def log1p (x : ℝ) : ℝ :=
  Real.log (1 + x)

/-- The five raw continuous features of one movie, in source order:
age in years, runtime, popularity, vote average, log1p of the vote
count. The current year is a parameter. -/
noncomputable def rawContinuous (cy : ℤ) (m : Movie) : List ℝ :=
  [((cy : ℝ) - (m.release_year : ℝ)), m.runtime, m.popularity,
    m.vote_average, log1p m.vote_count]

/-- Minimum of a list of reals, zero on the empty list. -/
noncomputable def listMin : List ℝ → ℝ
  | [] => 0
  | a :: l => l.foldl min a

/-- Maximum of a list of reals, zero on the empty list. -/
noncomputable def listMax : List ℝ → ℝ
  | [] => 0
  | a :: l => l.foldl max a

/-- Column j of a row-major matrix, as read by the column-wise fit of
MinMaxScaler. -/
def colVals (X : List (List ℝ)) (j : Nat) : List ℝ :=
  X.map (fun r => r.getD j 0)

/-- Observed column minimum of the fit data. -/
noncomputable def colMin (X : List (List ℝ)) (j : Nat) : ℝ :=
  listMin (colVals X j)

/-- Observed column maximum of the fit data. -/
noncomputable def colMax (X : List (List ℝ)) (j : Nat) : ℝ :=
  listMax (colVals X j)

/-- The sklearn handling of a zero scale: a zero column range is
replaced by one before dividing. -/
noncomputable def handleZero (r : ℝ) : ℝ :=
  if r = 0 then 1 else r

/-- One entry of the min-max transform of column j. -/
noncomputable def scaleEntry (X : List (List ℝ)) (j : Nat) (x : ℝ) : ℝ :=
  (x - colMin X j) / handleZero (colMax X j - colMin X j)

/-- MinMaxScaler fit_transform on a row-major matrix: every entry is
scaled by the observed minimum and range of its own column. -/
noncomputable def minmaxMatrix (X : List (List ℝ)) : List (List ℝ) :=
  X.map (fun r => (List.range r.length).map (fun j => scaleEntry X j (r.getD j 0)))

/-- Row-wise horizontal concatenation, the numpy hstack on matrices
with one row per movie. -/
def hstack (A B : List (List ℝ)) : List (List ℝ) :=
  List.zipWith (fun a b => a ++ b) A B

/-- The TF-IDF matrix of one vectorizer fit_transform call on the
documents of one field: one l2-normalized weighted row per document. -/
noncomputable def tfidfRow (sw : List String) (docs : List String) (d : String) : List ℝ :=
  normalizeRow ((vocabulary sw docs).map
    (fun t => ((List.count t (tokensOf sw d) : ℝ)) * idf sw docs t))

/-- All rows of one fit_transform call. -/
noncomputable def tfidfMatrix (sw : List String) (docs : List String) : List (List ℝ) :=
  docs.map (tfidfRow sw docs)

/-- MovieRecommender.feature_engineering: three independently fitted
TF-IDF blocks in field order genres, keywords, cast, concatenated
column-wise, followed by the min-max scaled continuous block. -/
noncomputable def feature_engineering (sw : List String) (cy : ℤ) (ms : List Movie) :
    List (List ℝ) :=
  hstack
    (hstack (hstack (tfidfMatrix sw (ms.map Movie.genres))
                    (tfidfMatrix sw (ms.map Movie.keywords)))
            (tfidfMatrix sw (ms.map Movie.cast)))
    (minmaxMatrix (ms.map (rawContinuous cy)))

/-- The similarity_scores row of calculate_similarity: cosine
similarity of the target row against every row of the feature
matrix. -/
noncomputable def similarity_scores (sw : List String) (cy : ℤ) (ms : List Movie)
    (idx : Nat) : List ℝ :=
  (feature_engineering sw cy ms).map
    (cosineSim ((feature_engineering sw cy ms).getD idx []))

/-- Insertion step of the stable ascending argsort: index i is placed
after every already-sorted index with a strictly smaller key and before
the first index with an equal or larger key. -/
noncomputable def insertIdxAsc (keys : List ℝ) (i : Nat) : List Nat → List Nat
  | [] => [i]
  | j :: l => if keys.getD j 0 < keys.getD i 0 then j :: insertIdxAsc keys i l
              else i :: j :: l

/-- Stable ascending argsort of a key list, the model of numpy argsort:
indices are sorted by ascending key, equal keys keeping index order. -/
noncomputable def argsortAsc (keys : List ℝ) : List Nat :=
  (List.range keys.length).foldr (insertIdxAsc keys) []

/-- The ordering the stable ascending argsort establishes: ascending
keys, with equal keys kept in ascending index order. -/
def ascRel (keys : List ℝ) (i j : Nat) : Prop :=
  keys.getD i 0 < keys.getD j 0 ∨ (keys.getD i 0 = keys.getD j 0 ∧ i < j)

/-- Core of MovieRecommender.calculate_similarity once the feature
matrix is available: look up the target index in the title dict,
compute the cosine similarity row, sort indices descending by
reversing the ascending argsort, drop position 0 and take the next
five, and map the surviving indices back to titles. -/
noncomputable def calculate_similarityFM (ms : List Movie) (fm : List (List ℝ))
    (title : String) : Except String (List String) :=
  match movie_indices ms title with
  | none => Except.error ("Movie " ++ title ++ " not found in the database.")
  | some target_idx =>
      Except.ok (((((argsortAsc (fm.map (cosineSim (fm.getD target_idx [])))).reverse).drop 1).take 5).map
        (fun i => (ms.getD i defaultMovie).title))

/-- MovieRecommender.calculate_similarity on a freshly built instance:
the feature matrix is built from the movie list and then queried. -/
noncomputable def calculate_similarity (sw : List String) (cy : ℤ) (ms : List Movie)
    (title : String) : Except String (List String) :=
  calculate_similarityFM ms (feature_engineering sw cy ms) title

/-- The mutable state of a MovieRecommender instance: the movie list
and the lazily built, cached feature matrix. -/
structure RecommenderState where
  movies : List Movie
  feature_matrix : Option (List (List ℝ))

/-- Stateful MovieRecommender.calculate_similarity: the feature matrix
is built and cached before the title lookup, so the updated state is
returned together with the result even when the lookup fails. -/
noncomputable def calculate_similarityS (sw : List String) (cy : ℤ)
    (s : RecommenderState) (title : String) :
    Except String (List String) × RecommenderState :=
  match s.feature_matrix with
  | some fm => (calculate_similarityFM s.movies fm title, s)
  | none =>
      let fm := feature_engineering sw cy s.movies
      (calculate_similarityFM s.movies fm title,
       { s with feature_matrix := some fm })

/-- First concrete movie used by the concrete theorems. -/
def mA : Movie :=
  ⟨"A", "Action|Adventure", "Dream|Spy", "Warner Bros", 1, 2010, 2,
    "Leonardo DiCaprio", 3, 4⟩

/-- Identical to mA except for the title. -/
def mB : Movie :=
  ⟨"B", "Action|Adventure", "Dream|Spy", "Warner Bros", 1, 2010, 2,
    "Leonardo DiCaprio", 3, 4⟩

/-- Identical to mA except for the title. -/
def mC : Movie :=
  ⟨"C", "Action|Adventure", "Dream|Spy", "Warner Bros", 1, 2010, 2,
    "Leonardo DiCaprio", 3, 4⟩

/-- Identical to mA except for the title. -/
def mD : Movie :=
  ⟨"D", "Action|Adventure", "Dream|Spy", "Warner Bros", 1, 2010, 2,
    "Leonardo DiCaprio", 3, 4⟩

/-- A duplicate of mA sharing the title A. -/
def mA2 : Movie :=
  ⟨"A", "Crime|Drama", "Mafia|Family", "Paramount Pictures", 5, 1972, 6,
    "Marlon Brando", 7, 8⟩

/-- A small representative stop-word list used to instantiate concrete
theorems; no claim depends on the contents of the library list. -/
def sampleStopWords : List String :=
  ["a", "an", "and", "the", "of", "in"]

/-! Basic facts about the dot product. -/

theorem dot_nil_left (v : List ℝ) : dot [] v = 0 := by simp [dot]

theorem dot_nil_right (u : List ℝ) : dot u [] = 0 := by simp [dot]

theorem dot_cons (a b : ℝ) (l m : List ℝ) : dot (a :: l) (b :: m) = a * b + dot l m := by
  simp [dot]

theorem dot_self_nonneg (u : List ℝ) : 0 ≤ dot u u := by
  induction u with
  | nil => simp [dot_nil_left]
  | cons a l ih => rw [dot_cons]; nlinarith [sq_nonneg a]

/-- Cauchy-Schwarz inequality for the list dot product. -/
theorem dot_sq_le (u v : List ℝ) : (dot u v)^2 ≤ dot u u * dot v v := by
  induction u generalizing v with
  | nil => simp [dot_nil_left]
  | cons a l ih =>
      cases v with
      | nil => simp [dot_nil_right]
      | cons b m =>
          have h1 := ih m
          have h2 := dot_self_nonneg l
          have h3 := dot_self_nonneg m
          rw [dot_cons, dot_cons, dot_cons]
          by_cases hA : dot l l = 0
          · have hS : dot l m = 0 := by nlinarith [h1, sq_nonneg (dot l m)]
            rw [hS, hA]
            nlinarith [mul_nonneg (sq_nonneg a) h3]
          · have hA2 : 0 < dot l l := lt_of_le_of_ne h2 (Ne.symm hA)
            nlinarith [sq_nonneg (a * dot l m - b * dot l l), mul_nonneg h2 h3, h1, hA2,
              mul_le_mul_of_nonneg_left h1 h2]

theorem dot_comm (u v : List ℝ) : dot u v = dot v u := by
  induction u generalizing v with
  | nil => cases v <;> simp [dot]
  | cons a l ih =>
      cases v with
      | nil => simp [dot]
      | cons b m => rw [dot_cons, dot_cons, ih, mul_comm]

theorem dot_eq_zero_of_self (u : List ℝ) (h : dot u u = 0) (w : List ℝ) : dot u w = 0 := by
  induction u generalizing w with
  | nil => simp [dot_nil_left]
  | cons a l ih =>
      rw [dot_cons] at h
      have h2 := dot_self_nonneg l
      have ha : a = 0 := by nlinarith [sq_nonneg a]
      have hl : dot l l = 0 := by nlinarith [sq_nonneg a]
      cases w with
      | nil => simp [dot_nil_right]
      | cons b m => rw [dot_cons, ih hl m, ha]; ring

theorem l2norm_nonneg (v : List ℝ) : 0 ≤ l2norm v := Real.sqrt_nonneg _

theorem sq_l2norm (v : List ℝ) : l2norm v * l2norm v = dot v v :=
  Real.mul_self_sqrt (dot_self_nonneg v)

theorem l2norm_eq_zero_iff (v : List ℝ) : l2norm v = 0 ↔ dot v v = 0 := by
  unfold l2norm
  exact Real.sqrt_eq_zero (dot_self_nonneg v)

theorem dot_map_div (u v : List ℝ) (x y : ℝ) :
    dot (u.map (fun a => a / x)) (v.map (fun b => b / y)) = dot u v / (x * y) := by
  induction u generalizing v with
  | nil => simp [dot_nil_left]
  | cons a l ih =>
      cases v with
      | nil => simp [dot_nil_right]
      | cons b m =>
          simp only [List.map_cons, dot_cons, ih]
          rw [div_mul_div_comm, div_add_div_same]

/-! Facts about cosine similarity. -/

theorem cosineSim_formula (u v : List ℝ) (hu : l2norm u ≠ 0) (hv : l2norm v ≠ 0) :
    cosineSim u v = dot u v / (l2norm u * l2norm v) := by
  unfold cosineSim normalizeRow
  rw [if_neg hu, if_neg hv, dot_map_div]

theorem cosineSim_zero_left (u v : List ℝ) (hu : l2norm u = 0) : cosineSim u v = 0 := by
  have hz : dot u u = 0 := (l2norm_eq_zero_iff u).mp hu
  unfold cosineSim normalizeRow
  rw [if_pos hu]
  exact dot_eq_zero_of_self u hz _

theorem cosineSim_self (u : List ℝ) (hu : l2norm u ≠ 0) : cosineSim u u = 1 := by
  rw [cosineSim_formula u u hu hu, sq_l2norm]
  have : dot u u ≠ 0 := fun h => hu ((l2norm_eq_zero_iff u).mpr h)
  field_simp

theorem dot_le_norms (u v : List ℝ) : dot u v ≤ l2norm u * l2norm v := by
  have h1 := dot_sq_le u v
  have h2 : dot u u * dot v v = (l2norm u * l2norm v)^2 := by
    rw [mul_pow, sq, sq, sq_l2norm, sq_l2norm]
  have h3 : 0 ≤ l2norm u * l2norm v := mul_nonneg (l2norm_nonneg u) (l2norm_nonneg v)
  nlinarith [h1, h2, h3, sq_nonneg (dot u v - l2norm u * l2norm v)]

/-- Self-similarity dominates the similarity with any other row. -/
theorem cosineSim_le_self (u v : List ℝ) : cosineSim u v ≤ cosineSim u u := by
  by_cases hu : l2norm u = 0
  · rw [cosineSim_zero_left u v hu, cosineSim_zero_left u u hu]
  · rw [cosineSim_self u hu]
    by_cases hv : l2norm v = 0
    · have hz : dot v v = 0 := (l2norm_eq_zero_iff v).mp hv
      unfold cosineSim normalizeRow
      rw [if_pos hv, if_neg hu, dot_comm]
      rw [dot_eq_zero_of_self v hz _]
      norm_num
    · rw [cosineSim_formula u v hu hv]
      have h3 : 0 < l2norm u * l2norm v :=
        lt_of_le_of_ne (mul_nonneg (l2norm_nonneg u) (l2norm_nonneg v)) (by positivity)
      rw [div_le_one h3]
      exact dot_le_norms u v

/-! Facts about the stable ascending argsort. -/

theorem length_insertIdxAsc (keys : List ℝ) (i : Nat) (l : List Nat) :
    (insertIdxAsc keys i l).length = l.length + 1 := by
  induction l with
  | nil => rfl
  | cons j m ih =>
      unfold insertIdxAsc
      by_cases h : keys.getD j 0 < keys.getD i 0
      · rw [if_pos h]; simp [ih]
      · rw [if_neg h]; simp

theorem length_argsortAsc (keys : List ℝ) : (argsortAsc keys).length = keys.length := by
  unfold argsortAsc
  have : ∀ l : List Nat, (l.foldr (insertIdxAsc keys) []).length = l.length := by
    intro l
    induction l with
    | nil => rfl
    | cons j m ih => simp [List.foldr_cons, length_insertIdxAsc, ih]
  rw [this, List.length_range]

theorem mem_insertIdxAsc (keys : List ℝ) (i : Nat) (l : List Nat) (x : Nat) :
    x ∈ insertIdxAsc keys i l ↔ x = i ∨ x ∈ l := by
  induction l with
  | nil => simp [insertIdxAsc]
  | cons j m ih =>
      unfold insertIdxAsc
      by_cases h : keys.getD j 0 < keys.getD i 0
      · rw [if_pos h]; simp [ih]; tauto
      · rw [if_neg h]; simp

theorem insertIdxAsc_pairwise (keys : List ℝ) (i : Nat) (l : List Nat)
    (hl : l.Pairwise (ascRel keys)) (hlt : ∀ j ∈ l, i < j) :
    (insertIdxAsc keys i l).Pairwise (ascRel keys) := by
  induction l with
  | nil => simp [insertIdxAsc]
  | cons j m ih =>
      rw [List.pairwise_cons] at hl
      obtain ⟨hj, hm⟩ := hl
      unfold insertIdxAsc
      by_cases h : keys.getD j 0 < keys.getD i 0
      · rw [if_pos h]
        rw [List.pairwise_cons]
        constructor
        · intro x hx
          rcases (mem_insertIdxAsc keys i m x).mp hx with hxi | hxm
          · subst hxi; left; exact h
          · exact hj x hxm
        · exact ih hm (fun j hjm => hlt j (List.mem_cons_of_mem _ hjm))
      · rw [if_neg h]
        rw [List.pairwise_cons]
        constructor
        · intro x hx
          have hle : keys.getD i 0 ≤ keys.getD j 0 := not_lt.mp h
          rcases List.mem_cons.mp hx with hxj | hxm
          · subst hxj
            rcases lt_or_eq_of_le hle with hlt2 | heq
            · left; exact hlt2
            · right; exact ⟨heq, hlt x (List.mem_cons_self _ _)⟩
          · rcases hj x hxm with hlt2 | ⟨heq, _⟩
            · left; exact lt_of_le_of_lt hle hlt2
            · rcases lt_or_eq_of_le (hle.trans (le_of_eq heq)) with hlt3 | heq3
              · left; exact hlt3
              · right; exact ⟨heq3, hlt x (List.mem_cons_of_mem _ hxm)⟩
        · exact List.pairwise_cons.mpr ⟨hj, hm⟩

theorem foldr_insert_pairwise (keys : List ℝ) (l : List Nat) (hl : l.Pairwise (· < ·)) :
    (l.foldr (insertIdxAsc keys) []).Pairwise (ascRel keys) ∧
      ∀ x, x ∈ l.foldr (insertIdxAsc keys) [] ↔ x ∈ l := by
  induction l with
  | nil => simp
  | cons i m ih =>
      rw [List.pairwise_cons] at hl
      obtain ⟨hi, hm⟩ := hl
      obtain ⟨ihp, ihm⟩ := ih hm
      constructor
      · exact insertIdxAsc_pairwise keys i _ ihp (fun j hj => hi j ((ihm j).mp hj))
      · intro x
        simp only [List.foldr_cons, mem_insertIdxAsc, List.mem_cons]
        rw [ihm x]

theorem argsortAsc_pairwise (keys : List ℝ) :
    (argsortAsc keys).Pairwise (ascRel keys) :=
  (foldr_insert_pairwise keys (List.range keys.length) (List.pairwise_lt_range _)).1

theorem mem_argsortAsc (keys : List ℝ) (x : Nat) :
    x ∈ argsortAsc keys ↔ x < keys.length := by
  unfold argsortAsc
  rw [(foldr_insert_pairwise keys (List.range keys.length)
    (List.pairwise_lt_range _)).2 x, List.mem_range]

theorem argsortAsc_two (c : ℝ) : argsortAsc [c, c] = [0, 1] := by
  unfold argsortAsc
  rw [show ([c, c] : List ℝ).length = 2 from rfl, show List.range 2 = [0, 1] by decide]
  simp only [List.foldr_cons, List.foldr_nil, insertIdxAsc,
    List.getD_cons_zero, List.getD_cons_succ]
  rw [if_neg (lt_irrefl c)]

theorem argsortAsc_three (c : ℝ) : argsortAsc [c, c, c] = [0, 1, 2] := by
  unfold argsortAsc
  rw [show ([c, c, c] : List ℝ).length = 3 from rfl, show List.range 3 = [0, 1, 2] by decide]
  simp only [List.foldr_cons, List.foldr_nil, insertIdxAsc,
    List.getD_cons_zero, List.getD_cons_succ]
  rw [if_neg (lt_irrefl c)]
  simp only [insertIdxAsc, List.getD_cons_zero, List.getD_cons_succ]
  rw [if_neg (lt_irrefl c)]

theorem argsortAsc_four (c : ℝ) : argsortAsc [c, c, c, c] = [0, 1, 2, 3] := by
  unfold argsortAsc
  rw [show ([c, c, c, c] : List ℝ).length = 4 from rfl,
    show List.range 4 = [0, 1, 2, 3] by decide]
  simp only [List.foldr_cons, List.foldr_nil, insertIdxAsc,
    List.getD_cons_zero, List.getD_cons_succ]
  rw [if_neg (lt_irrefl c)]
  simp only [insertIdxAsc, List.getD_cons_zero, List.getD_cons_succ]
  rw [if_neg (lt_irrefl c)]
  simp only [insertIdxAsc, List.getD_cons_zero, List.getD_cons_succ]
  rw [if_neg (lt_irrefl c)]

/-! Facts about the min-max scaling. -/

theorem foldl_min_le_init (l : List ℝ) (a : ℝ) : l.foldl min a ≤ a := by
  induction l generalizing a with
  | nil => simp
  | cons b m ih => exact le_trans (ih (min a b)) (min_le_left a b)

theorem foldl_min_le_mem (l : List ℝ) (a x : ℝ) (hx : x ∈ l) : l.foldl min a ≤ x := by
  induction l generalizing a with
  | nil => cases hx
  | cons b m ih =>
      rcases List.mem_cons.mp hx with h | h
      · subst h
        exact le_trans (foldl_min_le_init m (min a x)) (min_le_right a x)
      · exact ih (min a b) h

theorem init_le_foldl_max (l : List ℝ) (a : ℝ) : a ≤ l.foldl max a := by
  induction l generalizing a with
  | nil => simp
  | cons b m ih => exact le_trans (le_max_left a b) (ih (max a b))

theorem mem_le_foldl_max (l : List ℝ) (a x : ℝ) (hx : x ∈ l) : x ≤ l.foldl max a := by
  induction l generalizing a with
  | nil => cases hx
  | cons b m ih =>
      rcases List.mem_cons.mp hx with h | h
      · subst h
        exact le_trans (le_max_right a x) (init_le_foldl_max m (max a x))
      · exact ih (max a b) h

theorem listMin_le_mem (l : List ℝ) (x : ℝ) (hx : x ∈ l) : listMin l ≤ x := by
  cases l with
  | nil => cases hx
  | cons a m =>
      rcases List.mem_cons.mp hx with h | h
      · subst h; exact foldl_min_le_init m x
      · exact foldl_min_le_mem m a x h

theorem mem_le_listMax (l : List ℝ) (x : ℝ) (hx : x ∈ l) : x ≤ listMax l := by
  cases l with
  | nil => cases hx
  | cons a m =>
      rcases List.mem_cons.mp hx with h | h
      · subst h; exact init_le_foldl_max m x
      · exact mem_le_foldl_max m a x h

theorem scaleEntry_bounds (X : List (List ℝ)) (j : Nat) (x : ℝ)
    (hx : x ∈ colVals X j) : 0 ≤ scaleEntry X j x ∧ scaleEntry X j x ≤ 1 := by
  have hmin : colMin X j ≤ x := listMin_le_mem _ x hx
  have hmax : x ≤ colMax X j := mem_le_listMax _ x hx
  unfold scaleEntry handleZero
  by_cases h : colMax X j - colMin X j = 0
  · rw [if_pos h]
    have hx0 : x - colMin X j = 0 := by linarith
    rw [hx0]
    norm_num
  · rw [if_neg h]
    have hpos : 0 < colMax X j - colMin X j := by
      rcases lt_or_eq_of_le (by linarith : (0:ℝ) ≤ colMax X j - colMin X j) with h1 | h1
      · exact h1
      · exact absurd h1.symm h
    constructor
    · exact div_nonneg (by linarith) (le_of_lt hpos)
    · rw [div_le_one hpos]; linarith

theorem foldl_min_const (m : List ℝ) (c : ℝ) (h : ∀ y ∈ m, y = c) :
    m.foldl min c = c := by
  induction m with
  | nil => rfl
  | cons b l ih =>
      have hb : b = c := h b (List.mem_cons_self _ _)
      simp only [List.foldl_cons, hb, min_self]
      exact ih (fun y hy => h y (List.mem_cons_of_mem _ hy))

theorem scaleEntry_const (X : List (List ℝ)) (j : Nat) (x : ℝ)
    (hx : x ∈ colVals X j)
    (hconst : ∀ a ∈ colVals X j, ∀ b ∈ colVals X j, a = b) :
    scaleEntry X j x = 0 := by
  have hnum : x - colMin X j = 0 := by
    cases hcv : colVals X j with
    | nil => rw [hcv] at hx; cases hx
    | cons a m =>
        have hax : a = x := by
          refine hconst a ?_ x hx
          rw [hcv]; exact List.mem_cons_self _ _
        have hmc : ∀ y ∈ m, y = a := by
          intro y hy
          refine hconst y ?_ a ?_ <;> rw [hcv]
          · exact List.mem_cons_of_mem _ hy
          · exact List.mem_cons_self _ _
        have hma : colMin X j = a := by
          unfold colMin
          rw [hcv]
          show listMin (a :: m) = a
          unfold listMin
          exact foldl_min_const m a hmc
        rw [hma, hax]
        ring
  unfold scaleEntry
  rw [hnum, zero_div]

/-! Shape facts about the feature matrix. -/

theorem getD_zipWith_append (A B : List (List ℝ)) (i : Nat) (hA : i < A.length)
    (hB : i < B.length) :
    (List.zipWith (fun a b => a ++ b) A B).getD i [] = A.getD i [] ++ B.getD i [] := by
  induction A generalizing B i with
  | nil => cases hA
  | cons a A ih =>
      cases B with
      | nil => cases hB
      | cons b B =>
          cases i with
          | zero => simp
          | succ n =>
              simp only [List.zipWith_cons_cons, List.getD_cons_succ]
              exact ih B n (Nat.lt_of_succ_lt_succ hA) (Nat.lt_of_succ_lt_succ hB)

theorem length_tfidfMatrix (sw : List String) (docs : List String) :
    (tfidfMatrix sw docs).length = docs.length := List.length_map _ _

theorem length_minmaxMatrix (X : List (List ℝ)) : (minmaxMatrix X).length = X.length :=
  List.length_map _ _

theorem length_feature_engineering (sw : List String) (cy : ℤ) (ms : List Movie) :
    (feature_engineering sw cy ms).length = ms.length := by
  unfold feature_engineering hstack
  simp [List.length_zipWith, length_tfidfMatrix, length_minmaxMatrix]

/-! Reduction lemmas for the ranking core. -/

theorem calculate_similarityFM_found (ms : List Movie) (fm : List (List ℝ))
    (title : String) (idx : Nat) (h : movie_indices ms title = some idx) :
    calculate_similarityFM ms fm title =
      Except.ok (((((argsortAsc (fm.map (cosineSim (fm.getD idx [])))).reverse).drop 1).take 5).map
        (fun i => (ms.getD i defaultMovie).title)) := by
  unfold calculate_similarityFM
  rw [h]

theorem calculate_similarityFM_notfound (ms : List Movie) (fm : List (List ℝ))
    (title : String) (h : movie_indices ms title = none) :
    calculate_similarityFM ms fm title =
      Except.error ("Movie " ++ title ++ " not found in the database.") := by
  unfold calculate_similarityFM
  rw [h]

/-! Facts about the title index. -/

theorem movie_indices_append_single (ms : List Movie) (m : Movie) (t : String) :
    movie_indices (ms ++ [m]) t =
      if m.title = t then some ms.length else movie_indices ms t := by
  unfold movie_indices
  rw [List.enum_eq_zip_range, List.enum_eq_zip_range]
  have hlen : (ms ++ [m]).length = ms.length + 1 := by simp
  rw [hlen, List.range_succ, List.zip_append (by simp), List.foldl_append]
  simp

/-! Claim theorems. -/

/-- C3: calculate_similarity raises its ValueError exactly when the
query title is absent from the title index, and the error is returned
to the caller rather than recovered into a result. -/
theorem C3_notfound_iff (sw : List String) (cy : ℤ) (ms : List Movie) (title : String) :
    (∃ e, calculate_similarity sw cy ms title = Except.error e) ↔
      movie_indices ms title = none := by
  unfold calculate_similarity calculate_similarityFM
  cases h : movie_indices ms title with
  | none => simp
  | some idx => simp

/-- C10: the title index built by the dict comprehension of the
constructor maps a duplicated title to the index of its last
occurrence in the movie list, later entries overwriting earlier
ones. -/
theorem C10_last_occurrence (ms : List Movie) (t : String) (i : Nat) (hi : i < ms.length)
    (hit : (ms.getD i defaultMovie).title = t)
    (hlast : ∀ j, i < j → j < ms.length → (ms.getD j defaultMovie).title ≠ t) :
    movie_indices ms t = some i := by
  induction ms using List.reverseRecOn with
  | nil => cases hi
  | append_singleton l m ih =>
      rw [movie_indices_append_single]
      have hlen : (l ++ [m]).length = l.length + 1 := by simp
      rw [hlen] at hi hlast
      by_cases hcase : i = l.length
      · subst hcase
        have hgm : (l ++ [m]).getD l.length defaultMovie = m := by
          rw [List.getD_append_right _ _ _ _ (le_refl _)]
          simp
        rw [hgm] at hit
        rw [if_pos hit]
      · have hil : i < l.length := lt_of_le_of_ne (Nat.lt_succ_iff.mp hi) hcase
        have hm : m.title ≠ t := by
          have hj := hlast l.length hil (Nat.lt_succ_self _)
          rw [List.getD_append_right _ _ _ _ (le_refl _)] at hj
          simpa using hj
        rw [if_neg hm]
        refine ih hil ?_ ?_
        · rw [List.getD_append _ _ _ _ hil] at hit
          exact hit
        · intro j hij hjl
          have hj := hlast j hij (Nat.lt_succ_of_lt hjl)
          rw [List.getD_append _ _ _ _ hjl] at hj
          exact hj

/-- Witness for C10 at a concrete catalog with a duplicated title:
the title A occurs at indices 0 and 1 and the index maps it to 1. -/
theorem C10_last_occurrence_witness :
    (1 < ([mA, mA2, mB] : List Movie).length ∧
      (([mA, mA2, mB] : List Movie).getD 1 defaultMovie).title = "A") ∧
      movie_indices [mA, mA2, mB] "A" = some 1 := by
  refine ⟨⟨by decide, rfl⟩, ?_⟩
  refine C10_last_occurrence [mA, mA2, mB] "A" 1 (by decide) rfl ?_
  intro j h1 h2
  have h3 : j = 2 := by
    simp only [List.length_cons, List.length_nil] at h2
    omega
  subst h3
  decide

/-- C9: when the feature matrix is not yet built and the query title is
absent, the failing call still builds and caches the feature matrix:
the returned state holds the built matrix while the result is the
not-found error. -/
theorem C9_builds_before_notfound (sw : List String) (cy : ℤ) (s : RecommenderState)
    (title : String) (h1 : s.feature_matrix = none)
    (h2 : movie_indices s.movies title = none) :
    (∃ e, (calculate_similarityS sw cy s title).1 = Except.error e) ∧
      (calculate_similarityS sw cy s title).2.feature_matrix =
        some (feature_engineering sw cy s.movies) := by
  obtain ⟨ms0, fmopt⟩ := s
  simp only at h1 h2
  subst h1
  constructor
  · show ∃ e, calculate_similarityFM ms0 (feature_engineering sw cy ms0) title = Except.error e
    rw [calculate_similarityFM_notfound _ _ _ h2]
    exact ⟨_, rfl⟩
  · rfl

/-- Witness for C9 at a concrete unbuilt state and absent title. -/
theorem C9_builds_before_notfound_witness :
    (RecommenderState.mk [mA] none).feature_matrix = none ∧
      (∃ e, (calculate_similarityS sampleStopWords 2025 (RecommenderState.mk [mA] none) "Zzz").1 =
        Except.error e) ∧
      (calculate_similarityS sampleStopWords 2025 (RecommenderState.mk [mA] none) "Zzz").2.feature_matrix =
        some (feature_engineering sampleStopWords 2025 [mA]) := by
  have h := C9_builds_before_notfound sampleStopWords 2025 (RecommenderState.mk [mA] none) "Zzz" rfl rfl
  exact ⟨rfl, h.1, h.2⟩

/-- C2 (amended): calculate_similarity takes no k parameter, the cutoff
being hard-coded to five by the slice; for every catalog and every
title present in the index the returned sequence has length exactly
min 5 (N - 1) where N is the catalog size. -/
theorem C2_result_length (sw : List String) (cy : ℤ) (ms : List Movie) (title : String)
    (idx : Nat) (h : movie_indices ms title = some idx) :
    ∃ l, calculate_similarity sw cy ms title = Except.ok l ∧
      l.length = min 5 (ms.length - 1) := by
  unfold calculate_similarity
  rw [calculate_similarityFM_found _ _ _ idx h]
  refine ⟨_, rfl, ?_⟩
  rw [List.length_map, List.length_take, List.length_drop, List.length_reverse,
    length_argsortAsc, List.length_map, length_feature_engineering]

/-- Witness for C2 at a three-movie catalog: the hypothesis that the
title is present holds and the result has length min 5 2 = 2. -/
theorem C2_result_length_witness :
    movie_indices [mA, mB, mC] "A" = some 0 ∧
      ∃ l, calculate_similarity sampleStopWords 2025 [mA, mB, mC] "A" = Except.ok l ∧
        l.length = min 5 (([mA, mB, mC] : List Movie).length - 1) :=
  ⟨rfl, C2_result_length sampleStopWords 2025 [mA, mB, mC] "A" 0 rfl⟩

/-- C8: on a degenerate catalog of at most one movie the ranking core
never fails on an out-of-range slice: it returns the empty sequence or
signals an error, the slice being clamped exactly as a Python slice. -/
theorem C8_degenerate_safe (sw : List String) (cy : ℤ) (ms : List Movie) (title : String)
    (h : ms.length ≤ 1) :
    calculate_similarity sw cy ms title = Except.ok [] ∨
      ∃ e, calculate_similarity sw cy ms title = Except.error e := by
  cases hm : movie_indices ms title with
  | none =>
      right
      unfold calculate_similarity
      rw [calculate_similarityFM_notfound _ _ _ hm]
      exact ⟨_, rfl⟩
  | some idx =>
      left
      unfold calculate_similarity
      rw [calculate_similarityFM_found _ _ _ idx hm]
      have hdrop :
          ((argsortAsc ((feature_engineering sw cy ms).map
            (cosineSim ((feature_engineering sw cy ms).getD idx [])))).reverse).drop 1 = [] := by
        apply List.drop_eq_nil_of_le
        rw [List.length_reverse, length_argsortAsc, List.length_map,
          length_feature_engineering]
        exact h
      rw [hdrop]
      rfl

/-- Witness for C8 at a singleton catalog with its only title. -/
theorem C8_degenerate_safe_witness :
    ([mA] : List Movie).length ≤ 1 ∧
      (calculate_similarity sampleStopWords 2025 [mA] "A" = Except.ok [] ∨
        ∃ e, calculate_similarity sampleStopWords 2025 [mA] "A" = Except.error e) :=
  ⟨by decide, C8_degenerate_safe sampleStopWords 2025 [mA] "A" (by decide)⟩

/-- Slice behavior of the ranking core on a catalog of two rows with
identical feature vectors: the tie at maximal similarity puts the
query at position 1 of the descending order, so the slice returns the
query itself. -/
theorem calcFM_identical_two (ms : List Movie) (r : List ℝ) (title : String)
    (h : movie_indices ms title = some 0) :
    calculate_similarityFM ms [r, r] title =
      Except.ok [(ms.getD 0 defaultMovie).title] := by
  rw [calculate_similarityFM_found ms [r, r] title 0 h]
  rw [show ([r, r] : List (List ℝ)).map (cosineSim (([r, r] : List (List ℝ)).getD 0 [])) =
    [cosineSim r r, cosineSim r r] from rfl]
  rw [argsortAsc_two]
  rfl

/-- Slice behavior on three identical rows: the descending order is
index 2, 1, 0 and the slice keeps indices 1 and 0. -/
theorem calcFM_identical_three (ms : List Movie) (r : List ℝ) (title : String)
    (h : movie_indices ms title = some 0) :
    calculate_similarityFM ms [r, r, r] title =
      Except.ok [(ms.getD 1 defaultMovie).title, (ms.getD 0 defaultMovie).title] := by
  rw [calculate_similarityFM_found ms [r, r, r] title 0 h]
  rw [show ([r, r, r] : List (List ℝ)).map (cosineSim (([r, r, r] : List (List ℝ)).getD 0 [])) =
    [cosineSim r r, cosineSim r r, cosineSim r r] from rfl]
  rw [argsortAsc_three]
  rfl

/-- Slice behavior on four identical rows: the descending order is
index 3, 2, 1, 0 and the slice keeps indices 2, 1 and 0. -/
theorem calcFM_identical_four (ms : List Movie) (r : List ℝ) (title : String)
    (h : movie_indices ms title = some 0) :
    calculate_similarityFM ms [r, r, r, r] title =
      Except.ok [(ms.getD 2 defaultMovie).title, (ms.getD 1 defaultMovie).title,
        (ms.getD 0 defaultMovie).title] := by
  rw [calculate_similarityFM_found ms [r, r, r, r] title 0 h]
  rw [show ([r, r, r, r] : List (List ℝ)).map
      (cosineSim (([r, r, r, r] : List (List ℝ)).getD 0 [])) =
    [cosineSim r r, cosineSim r r, cosineSim r r, cosineSim r r] from rfl]
  rw [argsortAsc_four]
  rfl

/-- C1: the claim that the result never contains the query title fails
on the code. On a catalog of two movies identical except for the
title, the query ties with the duplicate at maximal similarity, lands
at position 1 rather than 0 of the descending order, and the slice
returns the query title itself. -/
theorem C1_tie_returns_query :
    calculate_similarity sampleStopWords 2025 [mA, mB] "A" = Except.ok ["A"] := by
  unfold calculate_similarity
  rw [show feature_engineering sampleStopWords 2025 [mA, mB] =
      [(feature_engineering sampleStopWords 2025 [mA, mB]).getD 0 [],
       (feature_engineering sampleStopWords 2025 [mA, mB]).getD 0 []] from rfl]
  rw [calcFM_identical_two [mA, mB] _ "A" rfl]
  rfl

/-- C4 counterexample: on a catalog of three movies with identical
features, rows 0 and 1 have equal similarity to the query, yet the
returned sequence places the title of row 1 before the title of row 0,
refuting the claimed smaller-index-first tie-break, under which the
result would have been the titles B then C. -/
theorem C4_counterexample :
    ((feature_engineering sampleStopWords 2025 [mA, mB, mC]).map
        (cosineSim ((feature_engineering sampleStopWords 2025 [mA, mB, mC]).getD 0 []))).getD 0 0 =
      ((feature_engineering sampleStopWords 2025 [mA, mB, mC]).map
        (cosineSim ((feature_engineering sampleStopWords 2025 [mA, mB, mC]).getD 0 []))).getD 1 0 ∧
    calculate_similarity sampleStopWords 2025 [mA, mB, mC] "A" = Except.ok ["B", "A"] ∧
      (Except.ok ["B", "A"] : Except String (List String)) ≠ Except.ok ["B", "C"] := by
  refine ⟨rfl, ?_, by simp⟩
  unfold calculate_similarity
  rw [show feature_engineering sampleStopWords 2025 [mA, mB, mC] =
      [(feature_engineering sampleStopWords 2025 [mA, mB, mC]).getD 0 [],
       (feature_engineering sampleStopWords 2025 [mA, mB, mC]).getD 0 [],
       (feature_engineering sampleStopWords 2025 [mA, mB, mC]).getD 0 []] from rfl]
  rw [calcFM_identical_three [mA, mB, mC] _ "A" rfl]
  rfl

/-- C2 counterexample: on a four-movie catalog the code returns three
titles, so for the caller-chosen count k = 2 promised by the claim the
length is not min k (N - 1): the code exposes no such parameter and
always keeps up to five. -/
theorem C2_counterexample :
    calculate_similarity sampleStopWords 2025 [mA, mB, mC, mD] "A" =
        Except.ok ["C", "B", "A"] ∧
      (["C", "B", "A"] : List String).length ≠
        min 2 (([mA, mB, mC, mD] : List Movie).length - 1) := by
  refine ⟨?_, by decide⟩
  unfold calculate_similarity
  rw [show feature_engineering sampleStopWords 2025 [mA, mB, mC, mD] =
      [(feature_engineering sampleStopWords 2025 [mA, mB, mC, mD]).getD 0 [],
       (feature_engineering sampleStopWords 2025 [mA, mB, mC, mD]).getD 0 [],
       (feature_engineering sampleStopWords 2025 [mA, mB, mC, mD]).getD 0 [],
       (feature_engineering sampleStopWords 2025 [mA, mB, mC, mD]).getD 0 []] from rfl]
  rw [calcFM_identical_four [mA, mB, mC, mD] _ "A" rfl]
  rfl

theorem getD_mem_of_lt {α : Type} (l : List α) (n : Nat) (d : α) (h : n < l.length) :
    l.getD n d ∈ l := by
  rw [List.getD_eq_getElem?_getD, List.getElem?_eq_getElem h]
  exact List.getElem_mem h

/-- C4 (amended): the ranking orders indices by non-increasing cosine
similarity, a property every argsort implementation provides, and two
calls with the same title yield identical output since the computation
is deterministic. No tie order is asserted in general: the stable
model is exact only in the small-array insertion-sort regime of numpy,
where the counterexample shows the larger original index coming first,
refuting the claimed smaller-index-first order. -/
theorem C4_ordering (sw : List String) (cy : ℤ) (ms : List Movie) (title : String)
    (idx : Nat) (h : movie_indices ms title = some idx) :
    ((argsortAsc (similarity_scores sw cy ms idx)).reverse).Pairwise
      (fun i j => (similarity_scores sw cy ms idx).getD j 0 ≤
          (similarity_scores sw cy ms idx).getD i 0) ∧
      calculate_similarity sw cy ms title = calculate_similarity sw cy ms title := by
  refine ⟨?_, rfl⟩
  rw [List.pairwise_reverse]
  refine (argsortAsc_pairwise (similarity_scores sw cy ms idx)).imp ?_
  intro a b hab
  rcases hab with h1 | ⟨h2, h3⟩
  · exact le_of_lt h1
  · exact le_of_eq h2

/-- Witness for C4 at a concrete present title. -/
theorem C4_ordering_witness :
    movie_indices [mA, mB] "A" = some 0 ∧
      (((argsortAsc (similarity_scores sampleStopWords 2025 [mA, mB] 0)).reverse).Pairwise
        (fun i j => (similarity_scores sampleStopWords 2025 [mA, mB] 0).getD j 0 ≤
            (similarity_scores sampleStopWords 2025 [mA, mB] 0).getD i 0) ∧
        calculate_similarity sampleStopWords 2025 [mA, mB] "A" =
          calculate_similarity sampleStopWords 2025 [mA, mB] "A") :=
  ⟨rfl, C4_ordering sampleStopWords 2025 [mA, mB] "A" 0 rfl⟩

/-- C5: every entry of the min-max scaled continuous block lies in the
interval from 0 to 1, and a column whose raw values are all equal is
scaled to the all-zero column. -/
theorem C5_minmax (cy : ℤ) (ms : List Movie) :
    (∀ row ∈ minmaxMatrix (ms.map (rawContinuous cy)), ∀ x ∈ row, 0 ≤ x ∧ x ≤ 1) ∧
      ∀ j, (∀ a ∈ colVals (ms.map (rawContinuous cy)) j,
          ∀ b ∈ colVals (ms.map (rawContinuous cy)) j, a = b) →
        ∀ row ∈ minmaxMatrix (ms.map (rawContinuous cy)), row.getD j 0 = 0 := by
  constructor
  · intro row hrow x hx
    obtain ⟨r, hr, hrow2⟩ := List.mem_map.mp hrow
    subst hrow2
    obtain ⟨j, hj, hx2⟩ := List.mem_map.mp hx
    subst hx2
    apply scaleEntry_bounds
    exact List.mem_map.mpr ⟨r, hr, rfl⟩
  · intro j hconst row hrow
    obtain ⟨r, hr, hrow2⟩ := List.mem_map.mp hrow
    subst hrow2
    by_cases hjr : j < r.length
    · rw [List.getD_eq_getElem?_getD, List.getElem?_map, List.getElem?_range hjr]
      exact scaleEntry_const _ _ _ (List.mem_map.mpr ⟨r, hr, rfl⟩) hconst
    · rw [List.getD_eq_getElem?_getD, List.getElem?_eq_none (by simpa using not_lt.mp hjr)]
      rfl

/-- Witness for C5 at a singleton catalog: the first scaled entry is
within bounds and equals zero since its column is constant. -/
theorem C5_minmax_witness :
    (0 ≤ ((minmaxMatrix ([mA].map (rawContinuous 2025))).getD 0 []).getD 0 0 ∧
      ((minmaxMatrix ([mA].map (rawContinuous 2025))).getD 0 []).getD 0 0 ≤ 1) ∧
      ((minmaxMatrix ([mA].map (rawContinuous 2025))).getD 0 []).getD 0 0 = 0 := by
  have hrow : (minmaxMatrix ([mA].map (rawContinuous 2025))).getD 0 [] ∈
      minmaxMatrix ([mA].map (rawContinuous 2025)) := by
    apply getD_mem_of_lt (d := [])
    rw [length_minmaxMatrix]
    decide
  have hx : ((minmaxMatrix ([mA].map (rawContinuous 2025))).getD 0 []).getD 0 0 ∈
      (minmaxMatrix ([mA].map (rawContinuous 2025))).getD 0 [] := by
    apply getD_mem_of_lt
    rw [show (minmaxMatrix ([mA].map (rawContinuous 2025))).getD 0 [] =
      (List.range (rawContinuous 2025 mA).length).map
        (fun j => scaleEntry ([mA].map (rawContinuous 2025)) j
          ((rawContinuous 2025 mA).getD j 0)) from rfl]
    rw [List.length_map, List.length_range]
    show 0 < 5
    decide
  obtain ⟨p1, p2⟩ := C5_minmax 2025 [mA]
  refine ⟨p1 _ hrow _ hx, p2 0 ?_ _ hrow⟩
  intro a ha b hb
  have ha2 : a = ((rawContinuous 2025 mA).getD 0 0) := by
    rcases List.mem_map.mp ha with ⟨r, hr, h⟩
    rcases List.mem_singleton.mp hr with rfl
    exact h.symm
  have hb2 : b = ((rawContinuous 2025 mA).getD 0 0) := by
    rcases List.mem_map.mp hb with ⟨r, hr, h⟩
    rcases List.mem_singleton.mp hr with rfl
    exact h.symm
  rw [ha2, hb2]

/-- C6: the cosine similarity of the ranking follows the standard
definition, the similarity of a zero-norm row with anything is 0
rather than an error, and the self-similarity of a row bounds every
score of its similarity row. -/
theorem C6_cosine (u v : List ℝ) :
    (l2norm u ≠ 0 → l2norm v ≠ 0 → cosineSim u v = dot u v / (l2norm u * l2norm v)) ∧
      (l2norm u = 0 → cosineSim u v = 0) ∧
      ∀ rows : List (List ℝ), ∀ s ∈ rows.map (cosineSim u), s ≤ cosineSim u u := by
  refine ⟨cosineSim_formula u v, cosineSim_zero_left u v, ?_⟩
  intro rows s hs
  obtain ⟨w, hw, rfl⟩ := List.mem_map.mp hs
  exact cosineSim_le_self u w

/-- Witness for C6 on concrete rows: one with norm 1, one with norm
0. -/
theorem C6_cosine_witness :
    cosineSim ([1] : List ℝ) [1] = dot [1] [1] / (l2norm [1] * l2norm [1]) ∧
      cosineSim ([0] : List ℝ) [1] = 0 ∧
      cosineSim ([1] : List ℝ) [1] ≤ cosineSim [1] [1] := by
  have hd1 : dot ([1] : List ℝ) [1] = 1 := by
    simp [dot]
  have h1 : l2norm ([1] : List ℝ) ≠ 0 := by
    unfold l2norm
    rw [hd1, Real.sqrt_one]
    norm_num
  have h0 : l2norm ([0] : List ℝ) = 0 := by
    unfold l2norm
    rw [show dot ([0] : List ℝ) [0] = 0 by simp [dot], Real.sqrt_zero]
  refine ⟨(C6_cosine [1] [1]).1 h1 h1, (C6_cosine [0] [1]).2.1 h0, ?_⟩
  exact (C6_cosine [1] [1]).2.2 [[1]] (cosineSim [1] [1]) (by simp)

/-- C7: the tokenizer splits on the bar only, keeping whitespace
inside a token; stop-list members are discarded; and every row of the
feature matrix is the concatenation of the genres, keywords and cast
TF-IDF rows followed by the scaled continuous row, in that order. -/
theorem C7_blocks :
    tokenize "Science Fiction|Action" = ["science fiction", "action"] ∧
      tokensOf sampleStopWords "The|Action" = ["action"] ∧
      ∀ (sw : List String) (cy : ℤ) (ms : List Movie) (i : Nat), i < ms.length →
        (feature_engineering sw cy ms).getD i [] =
          (tfidfMatrix sw (ms.map Movie.genres)).getD i [] ++
            ((tfidfMatrix sw (ms.map Movie.keywords)).getD i [] ++
              ((tfidfMatrix sw (ms.map Movie.cast)).getD i [] ++
                (minmaxMatrix (ms.map (rawContinuous cy))).getD i [])) := by
  refine ⟨by decide, by decide, ?_⟩
  intro sw cy ms i hi
  unfold feature_engineering hstack
  rw [getD_zipWith_append _ _ i ?_ ?_, getD_zipWith_append _ _ i ?_ ?_,
    getD_zipWith_append _ _ i ?_ ?_, List.append_assoc, List.append_assoc]
  · rw [length_tfidfMatrix, List.length_map]; exact hi
  · rw [length_tfidfMatrix, List.length_map]; exact hi
  · simp only [List.length_zipWith, length_tfidfMatrix, List.length_map, min_self]
    exact hi
  · rw [length_tfidfMatrix, List.length_map]; exact hi
  · simp only [List.length_zipWith, length_tfidfMatrix, List.length_map, min_self]
    exact hi
  · rw [length_minmaxMatrix, List.length_map]; exact hi

/-- Witness for C7 at a singleton catalog and row index 0. -/
theorem C7_blocks_witness :
    tokenize "Science Fiction|Action" = ["science fiction", "action"] ∧
      tokensOf sampleStopWords "The|Action" = ["action"] ∧
      (feature_engineering sampleStopWords 2025 [mA]).getD 0 [] =
        (tfidfMatrix sampleStopWords ([mA].map Movie.genres)).getD 0 [] ++
          ((tfidfMatrix sampleStopWords ([mA].map Movie.keywords)).getD 0 [] ++
            ((tfidfMatrix sampleStopWords ([mA].map Movie.cast)).getD 0 [] ++
              (minmaxMatrix ([mA].map (rawContinuous 2025))).getD 0 [])) :=
  ⟨C7_blocks.1, C7_blocks.2.1, C7_blocks.2.2 sampleStopWords 2025 [mA] 0 (by decide)⟩

end MovieRec
